import Mathlib

/-!
Verification of the hierarchical key-addressing engine of the `configure`
module (`src/include/config/configure.hpp`).

The repository ships only the header; the bodies of the member functions
(`Config::load`, `Config::at`, `Config::has_key`, `Config::insert`,
`Config::insert_table`) are not under `src/`.  The data model below mirrors
the header (a `toml::table` tree of tables and typed values, keys split on
the delimiter `keydel = '.'`), and the operations are modelled from the
spec's component design (§4.1–§4.5) and the header's doc comments.
-/

namespace Configure

/-- The runtime subtype tag of a leaf value, mirroring the four supported
value types of `Config::at` (`long long`, `double`, `bool`, `std::string`)
and the corresponding `toml::node_type`. -/
inductive VType where
  | integer
  | floating
  | boolean
  | string
  deriving DecidableEq

/-- A leaf payload: exactly one of {integer, float, boolean, string}.
The `double` payload is modelled by `Rat`; values are only stored and
retrieved, never computed with, so any faithful carrier works. -/
inductive Value where
  | intVal (x : Int)
  | floatVal (x : Rat)
  | boolVal (x : Bool)
  | strVal (x : String)
  deriving DecidableEq

/-- The runtime subtype of a stored value. -/
def Value.vtype : Value → VType
  | .intVal _ => .integer
  | .floatVal _ => .floating
  | .boolVal _ => .boolean
  | .strVal _ => .string

/-- Modelled from the spec: the default-initialized value (`T{}`) that the
missing body of `Config::insert` stores when it creates a new value node
(§4.3: "a new Value node of subtype T with a default-initialized value"). -/
def VType.defaultValue : VType → Value
  | .integer => .intVal 0
  | .floating => .floatVal 0
  | .boolean => .boolVal false
  | .string => .strVal ""

mutual
/-- A node of the configuration tree: either a table of named children or a
leaf value, mirroring `toml::table` / typed `toml::value` nodes (spec §3). -/
inductive Node where
  | value (v : Value)
  | table (t : Entries)
  deriving DecidableEq

/-- The ordered children of a table: an association list from segment name
to child node.  Lookup takes the first match, so trees built by the
operations below have unique sibling names (spec §3). -/
inductive Entries where
  | nil
  | cons (key : String) (child : Node) (rest : Entries)
  deriving DecidableEq
end

/-- Look up a direct child by segment name. -/
def Entries.lookup : Entries → String → Option Node
  | .nil, _ => none
  | .cons k m rest, s => if k = s then some m else rest.lookup s

/-- Replace the child named `s` if present, else append a new entry. -/
def Entries.set : Entries → String → Node → Entries
  | .nil, s, n => .cons s n .nil
  | .cons k m rest, s, n =>
      if k = s then .cons k n rest else .cons k m (rest.set s n)

/-- The key delimiter of the header: `static constexpr char keydel{'.'}`. -/
def keydel : Char := '.'

/-- Split a character list on `keydel`; always returns a non-empty list of
segments, with empty segments for leading/trailing/doubled delimiters. -/
def splitSegs : List Char → List (List Char)
  | [] => [[]]
  | c :: rest =>
      let r := splitSegs rest
      if c = keydel then [] :: r
      else
        match r with
        | [] => [[c]]
        | seg :: segs => (c :: seg) :: segs

/-- Modelled from the spec: §4.1 path parsing of the missing implementation
file — a dotted key is split strictly on the delimiter into segments. -/
def splitKey (key : String) : List String :=
  (splitSegs key.data).map fun cs => String.mk cs

/-- A key is well formed when it yields no empty segment (spec §4.1: empty
input or a leading/trailing/doubled delimiter is a malformed key). -/
def wellFormed (key : String) : Bool :=
  (splitKey key).all fun s => s ≠ ""

/-- Walk a node along a segment sequence without creating anything:
the read-only walk of spec §4.2 and §4.4. -/
def Node.find : Node → List String → Option Node
  | n, [] => some n
  | .value _, _ :: _ => none
  | .table es, s :: rest =>
      match es.lookup s with
      | some c => c.find rest
      | none => none

/-- The error kinds of the spec's taxonomy (§7) that the core itself
raises; parse failures belong to the external parsing collaborator. -/
inductive Err where
  | malformedKey
  | invalidAccess
  | typeConflict
  deriving DecidableEq

/-- The C++ exception type a core failure is surfaced as.  The header
documents `std::invalid_argument` for every failure of `Config::at`
(both overloads) and of `Config::insert` / `Config::insert_table`. -/
def Err.cppException : Err → String
  | _ => "std::invalid_argument"

/-- Modelled from the spec: the fetch-or-create walk of the missing bodies
of `Config::at` (writeable) and `Config::insert` / `Config::insert_table`,
following §4.3.  At an intermediate segment a missing child becomes a fresh
empty table, an existing table is descended into, and an existing value is
an "invalid access" (wrong shape).  At the final segment a missing child
becomes a default-initialized value of the requested subtype, an existing
value of the requested subtype is returned, an existing value of another
subtype is a "type conflict", and an existing table is an "invalid access".
The (possibly part-way extended) entries are returned together with the
result, mirroring in-place mutation of the tree. -/
def writeWalk (ty : VType) : Entries → List String → Entries × Except Err Value
  | es, [] => (es, .error .invalidAccess)
  | es, [s] =>
      match es.lookup s with
      | none => (es.set s (.value ty.defaultValue), .ok ty.defaultValue)
      | some (.value v) =>
          if v.vtype = ty then (es, .ok v) else (es, .error .typeConflict)
      | some (.table _) => (es, .error .invalidAccess)
  | es, s :: s₂ :: rest =>
      match es.lookup s with
      | none =>
          let r := writeWalk ty .nil (s₂ :: rest)
          (es.set s (.table r.1), r.2)
      | some (.table es₂) =>
          let r := writeWalk ty es₂ (s₂ :: rest)
          (es.set s (.table r.1), r.2)
      | some (.value _) => (es, .error .invalidAccess)

mutual
/-- Modelled from the spec: merging one loaded node onto an existing node
(§4.5).  Two tables merge recursively; any collision that is not
table-with-table — in particular any collision with an existing value —
is a "type conflict" and the existing node is kept unchanged. -/
def mergeNode : Node → Node → Node × Option Err
  | .table s, .table d =>
      let r := mergeEntries s d
      (.table r.1, r.2)
  | _, dst => (dst, some .typeConflict)

/-- Modelled from the spec: merging the entries of a loaded subtree into the
entries of a target table (§4.5).  A top-level entry absent from the target
is inserted with its full nested shape; an entry present on both sides is
merged by `mergeNode`; the walk stops at the first conflict, keeping the
entries already inserted (in-place mutation). -/
def mergeEntries : Entries → Entries → Entries × Option Err
  | .nil, dst => (dst, none)
  | .cons k n rest, dst =>
      match dst.lookup k with
      | none => mergeEntries rest (dst.set k n)
      | some m =>
          let r := mergeNode n m
          match r.2 with
          | some e => (dst.set k r.1, some e)
          | none => mergeEntries rest (dst.set k r.1)
end

/-- Modelled from the spec: resolving/creating the table at the root path of
a bulk load and merging the loaded data there — the composition of the
missing bodies of `Config::insert_table` and the private `Config::load`
(§4.5).  Intermediate tables are created as needed; an intermediate segment
that exists as a value is an "invalid access"; tables created before a
failure remain (in-place mutation). -/
def loadWalk (data : Entries) : Entries → List String → Entries × Option Err
  | es, [] => mergeEntries data es
  | es, s :: rest =>
      match es.lookup s with
      | none =>
          let r := loadWalk data .nil rest
          (es.set s (.table r.1), r.2)
      | some (.table es₂) =>
          let r := loadWalk data es₂ rest
          (es.set s (.table r.1), r.2)
      | some (.value _) => (es, some .invalidAccess)

/-- The sole persistent state of a `Config` object: its root table
(`toml::table tree` in the header). -/
structure Config where
  tree : Entries
  deriving DecidableEq

/-- The empty configuration created by the default constructor. -/
def Config.empty : Config := ⟨.nil⟩

/-- Modelled from the spec: the missing body of the read-only overload
`Config::at(key) const` (§4.2) — parse the key, walk the tree, and require
an existing value of the requested subtype; every failure (malformed key
apart) is the same "invalid access" kind. -/
def Config.atRead (c : Config) (ty : VType) (key : String) : Except Err Value :=
  if wellFormed key then
    match (Node.table c.tree).find (splitKey key) with
    | some (.value v) => if v.vtype = ty then .ok v else .error .invalidAccess
    | _ => .error .invalidAccess
  else .error .malformedKey

/-- Modelled from the spec: the missing body of the writeable overload
`Config::at(key)` (§4.3) — parse the key, then run the fetch-or-create
walk; a malformed key fails before any lookup or mutation.  Returns the
configuration after the call and the accessed value (the target of the
returned `T&`) or the error. -/
def Config.atWrite (c : Config) (ty : VType) (key : String) :
    Config × Except Err Value :=
  if wellFormed key then
    let r := writeWalk ty c.tree (splitKey key)
    (⟨r.1⟩, r.2)
  else (c, .error .malformedKey)

/-- Modelled from the spec: the missing body of `Config::has_key` (§4.4) —
the same parse-and-walk as the read-only access, but never failing: a key
that parses and resolves to any existing node (table or value) yields
`true`, anything else yields `false`. -/
def Config.has_key (c : Config) (key : String) : Bool :=
  wellFormed key && ((Node.table c.tree).find (splitKey key)).isSome

/-- Modelled from the spec: the missing body of the private
`Config::load(table, root)` (§4.5), with the external parser's output
already supplied as `data`.  An empty root places the data directly at the
root table; a non-empty root is parsed as a key, resolved or created as a
table, and merged into; a malformed non-empty root fails before any lookup
or mutation. -/
def Config.load (c : Config) (data : Entries) (root : String) :
    Config × Option Err :=
  if root = "" then
    let r := mergeEntries data c.tree
    (⟨r.1⟩, r.2)
  else if wellFormed root then
    let r := loadWalk data c.tree (splitKey root)
    (⟨r.1⟩, r.2)
  else (c, some .malformedKey)

/-- The two public `Config::load` overloads with the root argument omitted:
both headers default it to the empty string and hand the parsed data to the
private load. -/
def Config.loadDefault (c : Config) (data : Entries) : Config × Option Err :=
  c.load data ""

/-- Replace the value node at a resolved path, keeping everything else:
the effect of assigning through the `T&` reference returned by a
successful writeable access (§4.3: mutation through the reference
persists in the tree). -/
def setPath : Entries → List String → Value → Entries
  | es, [], _ => es
  | es, [s], v => es.set s (.value v)
  | es, s :: s₂ :: rest, v =>
      match es.lookup s with
      | some (.table es₂) => es.set s (.table (setPath es₂ (s₂ :: rest) v))
      | _ => es

/-- Assignment through the reference returned by writeable access: store
`v` at the (already resolved) key. -/
def Config.assign (c : Config) (key : String) (v : Value) : Config :=
  ⟨setPath c.tree (splitKey key) v⟩

/-- The resolution relation of the spec's walk (§4.2/§4.4), independent of
the executable `Node.find`: every non-final segment names a table child,
and the final segment names an existing node of any shape. -/
inductive Resolves : Entries → List String → Node → Prop where
  | last {es : Entries} {s : String} {n : Node} :
      es.lookup s = some n → Resolves es [s] n
  | step {es t : Entries} {s : String} {rest : List String} {n : Node} :
      es.lookup s = some (.table t) → Resolves t rest n →
      Resolves es (s :: rest) n

/-! Basic lemmas about lookup, set, splitting and the walk. -/

@[simp]
theorem Entries.lookup_set_self : ∀ (es : Entries) (k : String) (n : Node),
    (es.set k n).lookup k = some n
  | .nil, k, n => by simp [Entries.set, Entries.lookup]
  | .cons k' m rest, k, n => by
      by_cases h : k' = k
      · simp [Entries.set, Entries.lookup, h]
      · simp [Entries.set, Entries.lookup, h, lookup_set_self rest k n]

theorem Entries.lookup_set_ne :
    ∀ (es : Entries) {k k' : String} (n : Node), k' ≠ k →
      (es.set k n).lookup k' = es.lookup k'
  | .nil, k, k', n, h => by
      simp [Entries.set, Entries.lookup, Ne.symm h]
  | .cons k₀ m rest, k, k', n, h => by
      by_cases h₀ : k₀ = k
      · subst h₀
        simp [Entries.set, Entries.lookup, Ne.symm h]
      · simp only [Entries.set, if_neg h₀]
        by_cases h₁ : k₀ = k'
        · simp [Entries.lookup, h₁]
        · simp [Entries.lookup, h₁, lookup_set_ne rest n h]

theorem Entries.set_eq_of_lookup :
    ∀ {es : Entries} {k : String} {n : Node},
      es.lookup k = some n → es.set k n = es
  | .nil, k, n, h => by simp [Entries.lookup] at h
  | .cons k' m rest, k, n, h => by
      by_cases h' : k' = k
      · subst h'
        simp [Entries.lookup] at h
        simp [Entries.set, h]
      · simp [Entries.lookup, h'] at h
        simp [Entries.set, h', set_eq_of_lookup h]

theorem splitSegs_ne_nil (cs : List Char) : splitSegs cs ≠ [] := by
  cases cs with
  | nil => simp [splitSegs]
  | cons c rest =>
      simp only [splitSegs]
      by_cases h : c = keydel
      · simp [h]
      · simp only [h, if_false]
        cases splitSegs rest <;> simp

theorem splitKey_ne_nil (key : String) : splitKey key ≠ [] := by
  simp [splitKey, splitSegs_ne_nil]

@[simp]
theorem Value.vtype_defaultValue (ty : VType) :
    (VType.defaultValue ty).vtype = ty := by
  cases ty <;> rfl

@[simp]
theorem Node.find_nil (n : Node) : n.find [] = some n := by
  simp [Node.find]

@[simp]
theorem Node.find_value (v : Value) (s : String) (rest : List String) :
    (Node.value v).find (s :: rest) = none := by
  simp [Node.find]

theorem Node.find_table (es : Entries) (s : String) (rest : List String) :
    (Node.table es).find (s :: rest) =
      match es.lookup s with
      | some c => c.find rest
      | none => none := by
  simp [Node.find]

/-! Lemmas about the fetch-or-create walk. -/

theorem writeWalk_nil_ok : ∀ (ty : VType) (s : String) (rest : List String),
    (writeWalk ty .nil (s :: rest)).2 = .ok ty.defaultValue
  | ty, s, [] => by simp [writeWalk, Entries.lookup]
  | ty, s, s₂ :: r' => by
      simp [writeWalk, Entries.lookup, writeWalk_nil_ok ty s₂ r']

theorem writeWalk_err_eq :
    ∀ (ty : VType) (es : Entries) (segs : List String) (es' : Entries)
      (e : Err), writeWalk ty es segs = (es', .error e) → es' = es
  | ty, es, [], es', e => by
      intro h
      simp only [writeWalk, Prod.mk.injEq] at h
      exact h.1.symm
  | ty, es, [s], es', e => by
      intro h
      simp only [writeWalk] at h
      cases h₀ : es.lookup s with
      | none => rw [h₀] at h; simp at h
      | some n =>
          cases n with
          | value v =>
              rw [h₀] at h
              by_cases hv : v.vtype = ty
              · simp [hv] at h
              · simp [hv, Prod.mk.injEq] at h
                exact h.1.symm
          | table t =>
              rw [h₀] at h
              simp only [Prod.mk.injEq] at h
              exact h.1.symm
  | ty, es, s :: s₂ :: rest, es', e => by
      intro h
      simp only [writeWalk] at h
      cases h₀ : es.lookup s with
      | none =>
          rw [h₀] at h
          simp only [Prod.mk.injEq] at h
          rw [writeWalk_nil_ok ty s₂ rest] at h
          exact absurd h.2 (by simp)
      | some n =>
          cases n with
          | value v =>
              rw [h₀] at h
              simp only [Prod.mk.injEq] at h
              exact h.1.symm
          | table es₂ =>
              rw [h₀] at h
              simp only [Prod.mk.injEq] at h
              have h₂ : writeWalk ty es₂ (s₂ :: rest) =
                  ((writeWalk ty es₂ (s₂ :: rest)).1, .error e) := by
                rw [← h.2]
              have := writeWalk_err_eq ty es₂ (s₂ :: rest) _ e h₂
              rw [← h.1, this, Entries.set_eq_of_lookup h₀]

theorem writeWalk_ok_find :
    ∀ (ty : VType) (es : Entries) (segs : List String) (es' : Entries)
      (v : Value), segs ≠ [] → writeWalk ty es segs = (es', .ok v) →
      (Node.table es').find segs = some (.value v) ∧ v.vtype = ty
  | ty, es, [], es', v => by intro h; exact absurd rfl h
  | ty, es, [s], es', v => by
      intro _ h
      simp only [writeWalk] at h
      cases h₀ : es.lookup s with
      | none =>
          rw [h₀] at h
          simp only [Prod.mk.injEq, Except.ok.injEq] at h
          rw [← h.1, ← h.2]
          simp [Node.find_table]
      | some n =>
          cases n with
          | value w =>
              rw [h₀] at h
              by_cases hv : w.vtype = ty
              · simp only [hv, if_true, Prod.mk.injEq, Except.ok.injEq] at h
                rw [← h.1, ← h.2]
                simp [Node.find_table, h₀, hv]
              · simp [hv] at h
          | table t => rw [h₀] at h; simp at h
  | ty, es, s :: s₂ :: rest, es', v => by
      intro _ h
      simp only [writeWalk] at h
      cases h₀ : es.lookup s with
      | none =>
          rw [h₀] at h
          simp only [Prod.mk.injEq] at h
          have h₂ : writeWalk ty .nil (s₂ :: rest) =
              ((writeWalk ty .nil (s₂ :: rest)).1, .ok v) := by
            rw [← h.2]
          have ih := writeWalk_ok_find ty .nil (s₂ :: rest) _ v (by simp) h₂
          refine ⟨?_, ih.2⟩
          rw [← h.1]
          simp [Node.find_table, Entries.lookup_set_self, ih.1]
      | some n =>
          cases n with
          | value w => rw [h₀] at h; simp at h
          | table es₂ =>
              rw [h₀] at h
              simp only [Prod.mk.injEq] at h
              have h₂ : writeWalk ty es₂ (s₂ :: rest) =
                  ((writeWalk ty es₂ (s₂ :: rest)).1, .ok v) := by
                rw [← h.2]
              have ih := writeWalk_ok_find ty es₂ (s₂ :: rest) _ v (by simp) h₂
              refine ⟨?_, ih.2⟩
              rw [← h.1]
              simp [Node.find_table, Entries.lookup_set_self, ih.1]

/-! The shape-preservation order: a node evolves into another node when
every path resolvable in the old one still resolves in the new one, values
keeping their exact payload (hence their subtype) and tables staying
tables.  This is the formal reading of the spec's shape-immutability
invariant (§3). -/

/-- Top-level shape preservation between two nodes: an old value is kept
verbatim, an old table is still a table. -/
def ShapePres (n n' : Node) : Prop :=
  (∀ v, n = .value v → n' = .value v) ∧
  (∀ t, n = .table t → ∃ t', n' = .table t')

/-- Deep preservation: every path of the old node resolves in the new node
to a node of the same shape (values verbatim). -/
def NPres (m m' : Node) : Prop :=
  ∀ (p : List String) (n : Node), m.find p = some n →
    ∃ n', m'.find p = some n' ∧ ShapePres n n'

theorem shapePres_refl (n : Node) : ShapePres n n :=
  ⟨fun _ h => h, fun t h => ⟨t, h⟩⟩

theorem shapePres_trans {a b c : Node} (h₁ : ShapePres a b)
    (h₂ : ShapePres b c) : ShapePres a c := by
  constructor
  · intro v hv
    exact h₂.1 v (h₁.1 v hv)
  · intro t ht
    obtain ⟨t', ht'⟩ := h₁.2 t ht
    exact h₂.2 t' ht'

theorem npres_refl (m : Node) : NPres m m :=
  fun _p n h => ⟨n, h, shapePres_refl n⟩

theorem npres_trans {a b c : Node} (h₁ : NPres a b) (h₂ : NPres b c) :
    NPres a c := by
  intro p n h
  obtain ⟨n₁, hf₁, hs₁⟩ := h₁ p n h
  obtain ⟨n₂, hf₂, hs₂⟩ := h₂ p n₁ hf₁
  exact ⟨n₂, hf₂, shapePres_trans hs₁ hs₂⟩

theorem npres_set_absent (es : Entries) (k : String) (n : Node)
    (h : es.lookup k = none) :
    NPres (.table es) (.table (es.set k n)) := by
  intro p m hp
  cases p with
  | nil =>
      simp only [Node.find_nil, Option.some.injEq] at hp
      exact ⟨.table (es.set k n), by simp, by
        rw [← hp]; exact ⟨fun v hv => by simp at hv, fun t ht => ⟨_, rfl⟩⟩⟩
  | cons s rest =>
      rw [Node.find_table] at hp
      cases h₀ : es.lookup s with
      | none => rw [h₀] at hp; simp at hp
      | some c =>
          rw [h₀] at hp
          have hne : s ≠ k := by
            intro hsk
            rw [hsk, h] at h₀
            exact absurd h₀ (by simp)
          refine ⟨m, ?_, shapePres_refl m⟩
          rw [Node.find_table, Entries.lookup_set_ne es n hne, h₀]
          exact hp

theorem npres_set_update (es : Entries) (k : String) {m m' : Node}
    (h : es.lookup k = some m) (hm : NPres m m') :
    NPres (.table es) (.table (es.set k m')) := by
  intro p x hp
  cases p with
  | nil =>
      simp only [Node.find_nil, Option.some.injEq] at hp
      exact ⟨.table (es.set k m'), by simp, by
        rw [← hp]; exact ⟨fun v hv => by simp at hv, fun t ht => ⟨_, rfl⟩⟩⟩
  | cons s rest =>
      rw [Node.find_table] at hp
      by_cases hsk : s = k
      · subst hsk
        rw [h] at hp
        obtain ⟨x', hf, hs⟩ := hm rest x hp
        refine ⟨x', ?_, hs⟩
        rw [Node.find_table, Entries.lookup_set_self]
        exact hf
      · cases h₀ : es.lookup s with
        | none => rw [h₀] at hp; simp at hp
        | some c =>
            rw [h₀] at hp
            refine ⟨x, ?_, shapePres_refl x⟩
            rw [Node.find_table, Entries.lookup_set_ne es m' hsk, h₀]
            exact hp

theorem writeWalk_pres : ∀ (ty : VType) (es : Entries) (segs : List String),
    NPres (.table es) (.table (writeWalk ty es segs).1)
  | ty, es, [] => by simp only [writeWalk]; exact npres_refl _
  | ty, es, [s] => by
      simp only [writeWalk]
      cases h₀ : es.lookup s with
      | none => simp only; exact npres_set_absent es s _ h₀
      | some n =>
          cases n with
          | value v =>
              by_cases hv : v.vtype = ty
              · simp only [hv, if_true]
                exact npres_refl _
              · simp only [hv, if_false]
                exact npres_refl _
          | table t => simp only; exact npres_refl _
  | ty, es, s :: s₂ :: rest => by
      simp only [writeWalk]
      cases h₀ : es.lookup s with
      | none => simp only; exact npres_set_absent es s _ h₀
      | some n =>
          cases n with
          | value v => simp only; exact npres_refl _
          | table es₂ =>
              simp only
              exact npres_set_update es s h₀ (writeWalk_pres ty es₂ (s₂ :: rest))

mutual
theorem mergeNode_pres : ∀ (n m : Node), NPres m (mergeNode n m).1
  | .value v, m => by
      simp only [mergeNode]
      exact npres_refl m
  | .table s, m => by
      cases m with
      | value w =>
          simp only [mergeNode]
          exact npres_refl _
      | table d =>
          simp only [mergeNode]
          exact mergeEntries_pres s d

theorem mergeEntries_pres : ∀ (src dst : Entries),
    NPres (.table dst) (.table (mergeEntries src dst).1)
  | .nil, dst => by
      simp only [mergeEntries]
      exact npres_refl _
  | .cons k n rest, dst => by
      cases h : dst.lookup k with
      | none =>
          have h₁ := npres_set_absent dst k n h
          have h₂ := mergeEntries_pres rest (dst.set k n)
          simp only [mergeEntries, h]
          exact npres_trans h₁ h₂
      | some m =>
          have h₁ := npres_set_update dst k h (mergeNode_pres n m)
          simp only [mergeEntries, h]
          cases h₂ : (mergeNode n m).2 with
          | some e => simp only [h₂]; exact h₁
          | none =>
              simp only [h₂]
              exact npres_trans h₁ (mergeEntries_pres rest (dst.set k (mergeNode n m).1))
end

theorem loadWalk_pres : ∀ (data es : Entries) (segs : List String),
    NPres (.table es) (.table (loadWalk data es segs).1)
  | data, es, [] => by
      simp only [loadWalk]
      exact mergeEntries_pres data es
  | data, es, s :: rest => by
      simp only [loadWalk]
      cases h₀ : es.lookup s with
      | none => simp only; exact npres_set_absent es s _ h₀
      | some n =>
          cases n with
          | value v => simp only; exact npres_refl _
          | table es₂ =>
              simp only
              exact npres_set_update es s h₀ (loadWalk_pres data es₂ rest)

mutual
theorem mergeNode_err : ∀ (n m : Node),
    (mergeNode n m).2 = none ∨ (mergeNode n m).2 = some .typeConflict
  | .value v, m => by simp [mergeNode]
  | .table s, m => by
      cases m with
      | value w => simp [mergeNode]
      | table d =>
          simp only [mergeNode]
          exact mergeEntries_err s d

theorem mergeEntries_err : ∀ (src dst : Entries),
    (mergeEntries src dst).2 = none ∨
      (mergeEntries src dst).2 = some .typeConflict
  | .nil, dst => by simp [mergeEntries]
  | .cons k n rest, dst => by
      cases h : dst.lookup k with
      | none =>
          simp only [mergeEntries, h]
          exact mergeEntries_err rest (dst.set k n)
      | some m =>
          simp only [mergeEntries, h]
          cases h₂ : (mergeNode n m).2 with
          | some e =>
              simp only [h₂]
              rcases mergeNode_err n m with h₃ | h₃ <;> rw [h₂] at h₃
              · exact absurd h₃ (by simp)
              · simp only [Option.some.injEq] at h₃
                simp [h₃]
          | none =>
              simp only [h₂]
              exact mergeEntries_err rest (dst.set k (mergeNode n m).1)
end

/-! Lemmas about conflicts, assignment and the resolution relation. -/

theorem writeWalk_value_conflict :
    ∀ (ty : VType) (es : Entries) (segs : List String) (w : Value),
      (Node.table es).find segs = some (.value w) → w.vtype ≠ ty →
      writeWalk ty es segs = (es, .error .typeConflict)
  | ty, es, [], w => by
      intro h _
      simp at h
  | ty, es, [s], w => by
      intro h hw
      rw [Node.find_table] at h
      cases h₀ : es.lookup s with
      | none => rw [h₀] at h; simp at h
      | some c =>
          rw [h₀] at h
          simp only [Node.find_nil, Option.some.injEq] at h
          subst h
          simp [writeWalk, h₀, hw]
  | ty, es, s :: s₂ :: rest, w => by
      intro h hw
      rw [Node.find_table] at h
      cases h₀ : es.lookup s with
      | none => rw [h₀] at h; simp at h
      | some c =>
          rw [h₀] at h
          cases c with
          | value u => simp at h
          | table es₂ =>
              have ih := writeWalk_value_conflict ty es₂ (s₂ :: rest) w h hw
              simp [writeWalk, h₀, ih, Entries.set_eq_of_lookup h₀]

theorem setPath_find :
    ∀ (es : Entries) (segs : List String) (v w : Value),
      (Node.table es).find segs = some (.value w) →
      (Node.table (setPath es segs v)).find segs = some (.value v)
  | es, [], v, w => by
      intro h
      simp at h
  | es, [s], v, w => by
      intro h
      rw [Node.find_table] at h
      cases h₀ : es.lookup s with
      | none => rw [h₀] at h; simp at h
      | some c =>
          rw [h₀] at h
          simp only [Node.find_nil, Option.some.injEq] at h
          simp [setPath, Node.find_table, Entries.lookup_set_self]
  | es, s :: s₂ :: rest, v, w => by
      intro h
      rw [Node.find_table] at h
      cases h₀ : es.lookup s with
      | none => rw [h₀] at h; simp at h
      | some c =>
          rw [h₀] at h
          cases c with
          | value u => simp at h
          | table es₂ =>
              have ih := setPath_find es₂ (s₂ :: rest) v w h
              simp [setPath, h₀, Node.find_table, Entries.lookup_set_self, ih]

theorem find_iff_resolves :
    ∀ (es : Entries) (s : String) (rest : List String) (n : Node),
      (Node.table es).find (s :: rest) = some n ↔ Resolves es (s :: rest) n
  | es, s, [], n => by
      constructor
      · intro h
        rw [Node.find_table] at h
        cases h₀ : es.lookup s with
        | none => rw [h₀] at h; simp at h
        | some c =>
            rw [h₀] at h
            simp only [Node.find_nil, Option.some.injEq] at h
            subst h
            exact Resolves.last h₀
      · intro h
        cases h with
        | last h₀ => simp [Node.find_table, h₀]
        | step h₀ h₁ => cases h₁
  | es, s, s₂ :: r', n => by
      constructor
      · intro h
        rw [Node.find_table] at h
        cases h₀ : es.lookup s with
        | none => rw [h₀] at h; simp at h
        | some c =>
            rw [h₀] at h
            cases c with
            | value u => simp at h
            | table es₂ =>
                exact Resolves.step h₀ ((find_iff_resolves es₂ s₂ r' n).mp h)
      · intro h
        cases h with
        | step h₀ h₁ =>
            rw [Node.find_table, h₀]
            exact (find_iff_resolves _ s₂ r' n).mpr h₁

theorem NPres.value_stable {m m' : Node} (h : NPres m m') {p : List String}
    {v : Value} (hf : m.find p = some (.value v)) :
    m'.find p = some (.value v) := by
  obtain ⟨n', hf', hs⟩ := h p _ hf
  rw [hs.1 v rfl] at hf'
  exact hf'

theorem atWrite_npres (c : Config) (ty : VType) (key : String) :
    NPres (.table c.tree) (.table ((c.atWrite ty key).1).tree) := by
  unfold Config.atWrite
  by_cases h : wellFormed key = true
  · simp only [h, if_true]
    exact writeWalk_pres ty c.tree (splitKey key)
  · simp only [h, if_false]
    exact npres_refl _

theorem load_npres (c : Config) (data : Entries) (root : String) :
    NPres (.table c.tree) (.table ((c.load data root).1).tree) := by
  unfold Config.load
  by_cases h : root = ""
  · simp only [h, if_true]
    exact mergeEntries_pres data c.tree
  · simp only [h, if_false]
    by_cases h₂ : wellFormed root = true
    · simp only [h₂, if_true]
      exact loadWalk_pres data c.tree (splitKey root)
    · simp only [h₂, if_false]
      exact npres_refl _

/-! Claim theorems. -/

/-- The subtree `{a: {b: 1}}` of the spec's bulk-load scenario. -/
def subtreeAB1 : Entries :=
  .cons "a" (.table (.cons "b" (.value (.intVal 1)) .nil)) .nil

/-- The subtree `{a: {c: 2}}` of the spec's bulk-load scenario. -/
def subtreeAC2 : Entries :=
  .cons "a" (.table (.cons "c" (.value (.intVal 2)) .nil)) .nil

/-- The subtree `{a: {b: 2}}` of the spec's bulk-load scenario. -/
def subtreeAB2 : Entries :=
  .cons "a" (.table (.cons "b" (.value (.intVal 2)) .nil)) .nil

/-- The configuration after bulk-loading `{a: {b: 1}}` at root `"x"`. -/
def loadedX1 : Config := (Config.empty.load subtreeAB1 "x").1

/-- The configuration after additionally bulk-loading `{a: {c: 2}}` at
root `"x"`. -/
def loadedX2 : Config := (loadedX1.load subtreeAC2 "x").1

/-- The result of finally bulk-loading the colliding `{a: {b: 2}}` at
root `"x"`. -/
def loadedX3 : Config × Option Err := loadedX2.load subtreeAB2 "x"

/-- C1: bulk-load merges rather than overwrites — a top-level entry absent
from the target table is inserted; when both sides are tables they merge
recursively; an entry colliding with an existing value fails with "type
conflict" and leaves the existing value unchanged; loading `{a:{b:1}}`
then `{a:{c:2}}` at root `"x"` makes both `x.a.b` and `x.a.c` exist, and a
later load of `{a:{b:2}}` at `"x"` fails while `x.a.b` keeps the value 1. -/
theorem c1_bulk_load_merges :
    (∀ (k : String) (n : Node) (dst : Entries), dst.lookup k = none →
        mergeEntries (.cons k n .nil) dst = (dst.set k n, none)) ∧
    (∀ (k : String) (s d dst : Entries), dst.lookup k = some (.table d) →
        (mergeEntries (.cons k (.table s) .nil) dst).1 =
          dst.set k (.table (mergeEntries s d).1)) ∧
    (∀ (k : String) (n : Node) (rest dst : Entries) (w : Value),
        dst.lookup k = some (.value w) →
        mergeEntries (.cons k n rest) dst = (dst, some .typeConflict)) ∧
    (∀ (c : Config) (data : Entries) (root : String) (p : List String)
        (v : Value), (Node.table c.tree).find p = some (.value v) →
        (Node.table ((c.load data root).1).tree).find p = some (.value v)) ∧
    ((Config.empty.load subtreeAB1 "x").2 = none ∧
      (loadedX1.load subtreeAC2 "x").2 = none ∧
      loadedX2.has_key "x.a.b" = true ∧
      loadedX2.has_key "x.a.c" = true ∧
      loadedX3.2 = some .typeConflict ∧
      loadedX3.1.atRead .integer "x.a.b" = .ok (.intVal 1)) := by
  refine ⟨?_, ?_, ?_, ?_, ?_, ?_, ?_, ?_, ?_, ?_⟩
  · intro k n dst h
    simp [mergeEntries, h]
  · intro k s d dst h
    simp only [mergeEntries, h, mergeNode]
    cases h₂ : (mergeEntries s d).2 with
    | some e => simp [h₂]
    | none => simp [h₂, mergeEntries]
  · intro k n rest dst w h
    have hm : mergeNode n (.value w) = (.value w, some .typeConflict) := by
      cases n <;> simp [mergeNode]
    simp only [mergeEntries, h, hm]
    rw [Entries.set_eq_of_lookup h]
  · intro c data root p v hf
    exact (load_npres c data root).value_stable hf
  · decide
  · decide
  · decide
  · decide
  · decide
  · rfl

/-- Closed instance of C1: a fresh entry is inserted, and a collision with
an existing value is a type conflict keeping the target unchanged. -/
theorem c1_witness :
    mergeEntries (.cons "k" (.value (.intVal 7)) .nil) .nil =
      (Entries.set .nil "k" (.value (.intVal 7)), none) ∧
    mergeEntries (.cons "k" (.value (.boolVal true)) .nil)
        (.cons "k" (.value (.intVal 1)) .nil) =
      (.cons "k" (.value (.intVal 1)) .nil, some .typeConflict) :=
  ⟨c1_bulk_load_merges.1 "k" _ .nil rfl,
   c1_bulk_load_merges.2.2.1 "k" _ .nil _ (.intVal 1) rfl⟩

/-- C2: write-then-read round trip — after a writeable access at key `K`
with type `T` succeeds and the caller assigns a value of subtype `T`
through the returned reference, a read-only access at `K` with `T`
succeeds and returns the written value. -/
theorem c2_round_trip (c : Config) (ty : VType) (key : String) (c' : Config)
    (w v : Value) (h : c.atWrite ty key = (c', .ok w)) (hv : v.vtype = ty) :
    (c'.assign key v).atRead ty key = .ok v := by
  unfold Config.atWrite at h
  by_cases hk : wellFormed key = true
  · simp only [hk, if_true, Prod.mk.injEq] at h
    obtain ⟨hc, hr⟩ := h
    have h₂ : writeWalk ty c.tree (splitKey key) =
        ((writeWalk ty c.tree (splitKey key)).1, .ok w) := by
      rw [← hr]
    have hfind := writeWalk_ok_find ty c.tree (splitKey key) _ w
      (splitKey_ne_nil key) h₂
    have hset := setPath_find (writeWalk ty c.tree (splitKey key)).1
      (splitKey key) v w hfind.1
    rw [← hc]
    simp [Config.assign, Config.atRead, hk, hset, hv]
  · simp [hk] at h

/-- Closed instance of C2: writing `8080` at a freshly created
`server.port` and reading it back yields `8080`. -/
theorem c2_witness :
    ((Config.mk (.cons "server"
          (.table (.cons "port" (.value (.intVal 0)) .nil)) .nil)).assign
        "server.port" (.intVal 8080)).atRead .integer "server.port" =
      .ok (.intVal 8080) :=
  c2_round_trip Config.empty .integer "server.port" _ (.intVal 0)
    (.intVal 8080) rfl rfl

/-- C3: writeable access at a key whose final segment names a value of a
different subtype always fails with "type conflict" and leaves the
configuration — in particular the existing node's value and subtype —
unchanged. -/
theorem c3_write_type_conflict (c : Config) (ty : VType) (key : String)
    (w : Value) (hk : wellFormed key = true)
    (hf : (Node.table c.tree).find (splitKey key) = some (.value w))
    (hw : w.vtype ≠ ty) :
    c.atWrite ty key = (c, .error .typeConflict) := by
  unfold Config.atWrite
  simp only [hk, if_true]
  rw [writeWalk_value_conflict ty c.tree (splitKey key) w hf hw]

/-- Closed instance of C3: requesting the integer type at a key holding a
boolean fails with a type conflict and keeps the tree. -/
theorem c3_witness :
    (Config.mk (.cons "flag" (.value (.boolVal true)) .nil)).atWrite
        .integer "flag" =
      (Config.mk (.cons "flag" (.value (.boolVal true)) .nil),
        .error .typeConflict) :=
  c3_write_type_conflict _ .integer "flag" (.boolVal true) (by decide) rfl
    (by decide)

/-- C4: `has_key` never fails on any input string — it is a total boolean
function, true exactly when the key parses into segments and every segment
resolves through table nodes with the final segment naming an existing
node of any shape, and false on any missing segment or non-table
intermediate. -/
theorem c4_has_key_iff (c : Config) (key : String) :
    c.has_key key = true ↔
      (wellFormed key = true ∧ ∃ n, Resolves c.tree (splitKey key) n) := by
  unfold Config.has_key
  cases hs : splitKey key with
  | nil => exact absurd hs (splitKey_ne_nil key)
  | cons s rest =>
      rw [Bool.and_eq_true, Option.isSome_iff_exists]
      exact and_congr_right fun _ =>
        exists_congr fun n => find_iff_resolves c.tree s rest n

/-- C5: a key that is empty or has an empty segment is rejected as
malformed by every keyed operation before any lookup or mutation: both
typed accesses fail with the malformed-key error leaving the tree
untouched, `has_key` is false, and a bulk load at such a (non-empty) root
fails with the malformed-key error leaving the tree untouched. -/
theorem c5_malformed_key (key : String) (hk : wellFormed key = false)
    (c : Config) (ty : VType) (data : Entries) :
    c.atRead ty key = .error .malformedKey ∧
    c.atWrite ty key = (c, .error .malformedKey) ∧
    c.has_key key = false ∧
    (key ≠ "" → c.load data key = (c, some .malformedKey)) := by
  refine ⟨?_, ?_, ?_, ?_⟩
  · simp [Config.atRead, hk]
  · simp [Config.atWrite, hk]
  · simp [Config.has_key, hk]
  · intro h₀
    simp [Config.load, h₀, hk]

/-- Closed instance of C5: the doubled-delimiter key `"a..b"` is rejected
by every operation on the empty configuration. -/
theorem c5_witness :
    Config.empty.atRead .integer "a..b" = .error .malformedKey ∧
    Config.empty.atWrite .integer "a..b" =
      (Config.empty, .error .malformedKey) ∧
    Config.empty.has_key "a..b" = false ∧
    ("a..b" ≠ "" →
      Config.empty.load .nil "a..b" = (Config.empty, some .malformedKey)) :=
  c5_malformed_key "a..b" (by decide) Config.empty .integer .nil

/-- C6: read-only access at a well-formed key that does not resolve to an
existing value of the requested subtype — missing intermediate table,
missing final key, final node a table, or subtype mismatch — always fails
with "invalid access"; the access is a pure function of the configuration,
so the tree is identical before and after the call. -/
theorem c6_read_invalid_access (c : Config) (ty : VType) (key : String)
    (hk : wellFormed key = true)
    (h : ∀ v, (Node.table c.tree).find (splitKey key) = some (.value v) →
      v.vtype ≠ ty) :
    c.atRead ty key = .error .invalidAccess := by
  unfold Config.atRead
  simp only [hk, if_true]
  cases hf : (Node.table c.tree).find (splitKey key) with
  | none => rfl
  | some n =>
      cases n with
      | value v => simp [h v hf]
      | table t => rfl

/-- Closed instance of C6: reading a key absent from the empty
configuration fails with "invalid access". -/
theorem c6_witness :
    Config.empty.atRead .integer "missing.key" = .error .invalidAccess :=
  c6_read_invalid_access Config.empty .integer "missing.key" (by decide)
    (by
      intro v h
      rw [show (Node.table Config.empty.tree).find
            (splitKey "missing.key") = none from rfl] at h
      exact Option.noConfusion h)

/-- C7: a failing writeable access leaves the configuration exactly as it
was — the left-to-right walk stops at the first failing segment, which is
always a pre-existing node of the wrong shape or subtype, so the failed
call created zero table nodes and zero value nodes (within the claim's
"zero or more tables and at most one value"), and every node created for
earlier, successfully-resolved segments — there are none — trivially
remains in the tree. -/
theorem c7_failed_write_frame (c : Config) (ty : VType) (key : String)
    (c' : Config) (e : Err) (h : c.atWrite ty key = (c', .error e)) :
    c' = c := by
  unfold Config.atWrite at h
  by_cases hk : wellFormed key = true
  · simp only [hk, if_true, Prod.mk.injEq] at h
    obtain ⟨hc, hr⟩ := h
    have h₂ : writeWalk ty c.tree (splitKey key) =
        ((writeWalk ty c.tree (splitKey key)).1, .error e) := by
      rw [← hr]
    have h₃ := writeWalk_err_eq ty c.tree (splitKey key) _ e h₂
    rw [← hc, h₃]
  · rw [if_neg hk] at h
    injection h with h₁ h₂
    exact h₁.symm

/-- Closed instance of C7: a writeable access failing on a subtype
conflict returns the configuration unchanged. -/
theorem c7_witness :
    ((Config.mk (.cons "flag" (.value (.boolVal true)) .nil)).atWrite
        .integer "flag").1 =
      Config.mk (.cons "flag" (.value (.boolVal true)) .nil) :=
  c7_failed_write_frame _ .integer "flag" _ .typeConflict rfl

/-- C8: shape immutability — writeable access and bulk load map every node
reachable in the old tree to a node at the same path with the same shape
(values are kept verbatim, so their subtype never changes, and tables stay
tables); read-only access and `has_key` are pure functions of the
configuration; and treating an existing value as a table during the
fetch-or-create walk is an error. -/
theorem c8_shape_invariant :
    (∀ (c : Config) (ty : VType) (key : String) (p : List String) (n : Node),
        (Node.table c.tree).find p = some n →
        ∃ n', (Node.table ((c.atWrite ty key).1).tree).find p = some n' ∧
          ShapePres n n') ∧
    (∀ (c : Config) (data : Entries) (root : String) (p : List String)
        (n : Node), (Node.table c.tree).find p = some n →
        ∃ n', (Node.table ((c.load data root).1).tree).find p = some n' ∧
          ShapePres n n') ∧
    (∀ (es : Entries) (s s₂ : String) (rest : List String) (ty : VType)
        (v : Value), es.lookup s = some (.value v) →
        writeWalk ty es (s :: s₂ :: rest) = (es, .error .invalidAccess)) := by
  refine ⟨?_, ?_, ?_⟩
  · intro c ty key p n hf
    exact atWrite_npres c ty key p n hf
  · intro c data root p n hf
    exact load_npres c data root p n hf
  · intro es s s₂ rest ty v h
    simp [writeWalk, h]

/-- Closed instance of C8: an existing integer value survives, with its
shape, a writeable access that fails against it. -/
theorem c8_witness :
    ∃ n', (Node.table (((Config.mk
          (.cons "a" (.value (.intVal 5)) .nil)).atWrite
            .boolean "a").1).tree).find ["a"] = some n' ∧
      ShapePres (.value (.intVal 5)) n' :=
  c8_shape_invariant.1 _ .boolean "a" ["a"] _ rfl

/-- C9: every failure of typed access — in the read-only and writeable
overloads alike — is surfaced as the single C++ exception type
`std::invalid_argument` (as the header documents for both `Config::at`
overloads and `Config::insert`), so the spec's "invalid access" and "type
conflict" error kinds are indistinguishable by exception type. -/
theorem c9_exception_type :
    (∀ (c : Config) (ty : VType) (key : String) (e : Err),
        c.atRead ty key = .error e →
        e.cppException = "std::invalid_argument") ∧
    (∀ (c : Config) (ty : VType) (key : String) (e : Err),
        (c.atWrite ty key).2 = .error e →
        e.cppException = "std::invalid_argument") ∧
    Err.invalidAccess.cppException = Err.typeConflict.cppException := by
  refine ⟨?_, ?_, rfl⟩
  · intro c ty key e _
    cases e <;> rfl
  · intro c ty key e _
    cases e <;> rfl

/-- Closed instance of C9: the "invalid access" failure of a read on the
empty configuration carries the exception type `std::invalid_argument`. -/
theorem c9_witness :
    Err.cppException .invalidAccess = "std::invalid_argument" :=
  c9_exception_type.1 Config.empty .integer "missing" .invalidAccess rfl

/-- C10: both public load overloads with the root omitted default it to
the empty string and place the parsed data at the tree's root table — an
empty root never yields the malformed-key error (only merge conflicts can
fail it) and a fresh top-level entry lands directly in the root table —
even though the empty string is rejected as malformed by the typed
accessors and by `has_key`. -/
theorem c10_empty_root_load :
    (∀ (c : Config) (data : Entries),
        c.loadDefault data = c.load data "" ∧
        ((c.loadDefault data).2 = none ∨
          (c.loadDefault data).2 = some .typeConflict)) ∧
    (∀ (c : Config) (k : String) (n : Node), c.tree.lookup k = none →
        ((c.loadDefault (.cons k n .nil)).1).tree.lookup k = some n) ∧
    (∀ (c : Config) (ty : VType),
        c.atRead ty "" = .error .malformedKey ∧
        c.atWrite ty "" = (c, .error .malformedKey) ∧
        c.has_key "" = false) := by
  refine ⟨?_, ?_, ?_⟩
  · intro c data
    refine ⟨rfl, ?_⟩
    simp only [Config.loadDefault, Config.load, if_pos rfl]
    exact mergeEntries_err data c.tree
  · intro c k n h
    simp only [Config.loadDefault, Config.load, if_pos rfl]
    simp [mergeEntries, h]
  · intro c ty
    refine ⟨?_, ?_, ?_⟩
    · simp [Config.atRead, show wellFormed "" = false by decide]
    · simp [Config.atWrite, show wellFormed "" = false by decide]
    · simp [Config.has_key, show wellFormed "" = false by decide]

/-- Closed instance of C10: loading a fresh entry with the root omitted
places it at the root table of the empty configuration. -/
theorem c10_witness :
    ((Config.empty.loadDefault
        (.cons "a" (.value (.intVal 3)) .nil)).1).tree.lookup "a" =
      some (.value (.intVal 3)) :=
  c10_empty_root_load.2.1 Config.empty "a" (.value (.intVal 3)) rfl

end Configure
